import Mathlib

/-!
Shallow embedding of the Smart Task Analyzer scoring engine
(src/backend/tasks_app/scoring.py) and verification of its specification.

Conventions of the embedding:
* Python floats are modelled as exact rationals; calendar dates as integers
  counting days, so that Python date subtraction (a - b).days becomes integer
  subtraction.
* Python round(x, 4) (round-half-to-even) is modelled by pyRound / round4.
* Raw task records are loosely typed Python dicts; each field is modelled by a
  small variant type recording whether the field was absent, falsy, malformed
  (a value on which int() / float() / date parsing raises) or a usable value.
  The try/except defaulting of the source is then a total match.
* Python dicts keyed by task id are modelled as association lists in insertion
  order; dict assignment is upsert (update in place, else append).
* The recursive DFS of detect_cycles is modelled with an explicit fuel
  parameter; the fuel used by the entry point (number of keys + 1) is proved
  sufficient in the lemmas below (the traversal never hits the fuel bound).
* The per-clause explanation strings are not modelled; no claim refers to them.
-/

namespace SmartTask

/-- Round-half-to-even on rationals, as Python's builtin round on exact
values: ties (fractional part exactly 1/2) go to the nearest even integer. -/
def pyRound (x : ℚ) : ℤ :=
  if Int.fract x = 1/2 then 2 * round (x / 2) else round x

/-- Rounding to 4 decimal places, as Python round(x, 4) in scoring.py. -/
def round4 (x : ℚ) : ℚ := (pyRound (x * 10000) : ℚ) / 10000

/-- Raw value of the due_date field. dateVal models a datetime.date instance;
parsableStr a string dateutil can parse (carrying the parsed day number);
unparsableStr a value on which parsing raises. -/
inductive RawDate where
  | missing
  | emptyStr
  | dateVal (d : Int)
  | parsableStr (d : Int)
  | unparsableStr
  deriving DecidableEq

/-- Embedding of parse_due_date (scoring.py lines 13-21): None or '' give
None, a date instance is returned as is, otherwise best-effort parsing with
failure mapped to None. -/
def parse_due_date : RawDate → Option Int
  | .missing => none
  | .emptyStr => none
  | .dateVal d => some d
  | .parsableStr d => some d
  | .unparsableStr => none

/-- Raw value of the importance field. missingOrFalsy covers an absent key,
None, 0, '' and other falsy values (the source reads
int(t.get('importance') or 5)); intLike n is a truthy value that int() maps
to n; invalid is a truthy value on which int() raises. -/
inductive RawImportance where
  | missingOrFalsy
  | intLike (n : Int)
  | invalid
  deriving DecidableEq

/-- Raw value of the estimated_hours field. missing covers an absent key or
None (the source tests t.get('estimated_hours') is not None); numLike q is a
value float() maps to q; invalid is a value on which float() raises. -/
inductive RawHours where
  | missing
  | numLike (q : ℚ)
  | invalid
  deriving DecidableEq

/-- Raw input task record (a Python dict). id and title are optional strings
(some "" models a present but empty string, which is falsy); dependencies none
models an absent key, None or any falsy value. -/
structure RawTask where
  id : Option String
  title : Option String
  due_date : RawDate
  importance : RawImportance
  estimated_hours : RawHours
  dependencies : Option (List String)
  deriving DecidableEq

/-- Python truthiness filter for an optional string: None and '' are falsy. -/
def truthy : Option String → Option String
  | some s => if s = "" then none else some s
  | none => none

/-- Derived id of the i-th raw task, as scoring.py line 89:
str(t.get('id') or t.get('title') or f"task-{i}"). -/
def deriveId (t : RawTask) (i : Nat) : String :=
  match truthy t.id with
  | some s => s
  | none =>
    match truthy t.title with
    | some s => s
    | none => "task-" ++ toString i

/-- Derived title of the i-th raw task, as scoring.py line 92. -/
def deriveTitle (t : RawTask) (i : Nat) : String :=
  match truthy t.title with
  | some s => s
  | none => "Untitled " ++ toString i

/-- Normalized importance, scoring.py lines 93-96: int(t.get('importance')
or 5) with exceptions defaulting to 5. -/
def normImportance : RawImportance → Int
  | .missingOrFalsy => 5
  | .intLike n => n
  | .invalid => 5

/-- Normalized estimated hours, scoring.py lines 97-100: float of the value
when present and not None, defaulting to 4.0 on absence or exception. -/
def normHours : RawHours → ℚ
  | .missing => 4
  | .numLike q => q
  | .invalid => 4

/-- Normalized (cleaned) task record, scoring.py lines 90-102. The
estimated_hours field of the cleaned dict is an Option to mirror the
nullable dict entry tested at line 167; normalization always stores a value. -/
structure NormalizedTask where
  id : String
  title : String
  importance : Int
  estimated_hours : Option ℚ
  due_date : Option Int
  dependencies : List String
  deriving DecidableEq

/-- Normalization of one raw task at input position i (scoring.py 88-102). -/
def normalizeTask (i : Nat) (t : RawTask) : NormalizedTask :=
  { id := deriveId t i
    title := deriveTitle t i
    importance := normImportance t.importance
    estimated_hours := some (normHours t.estimated_hours)
    due_date := parse_due_date t.due_date
    dependencies := t.dependencies.getD [] }

/-- Association-list lookup, first match wins, as Python dict read. -/
def alist_get {β : Type} : List (String × β) → String → Option β
  | [], _ => none
  | p :: l, k => if p.1 = k then some p.2 else alist_get l k

/-- Python dict assignment on an insertion-ordered association list:
an existing key keeps its position and gets the new value, a new key is
appended. -/
def upsert {β : Type} (m : List (String × β)) (k : String) (v : β) :
    List (String × β) :=
  if k ∈ m.map Prod.fst then
    m.map (fun p => if p.1 = k then (k, v) else p)
  else m ++ [(k, v)]

/-- The id_map build loop of scoring.py lines 86-103, folding over the
enumerated task list from an arbitrary starting map. -/
def buildIdMapFrom (m0 : List (String × NormalizedTask))
    (l : List (Nat × RawTask)) : List (String × NormalizedTask) :=
  l.foldl (fun m p => upsert m (deriveId p.2 p.1) (normalizeTask p.1 p.2)) m0

/-- The id_map of a raw task list (scoring.py lines 86-103). -/
def buildIdMap (ts : List RawTask) : List (String × NormalizedTask) :=
  buildIdMapFrom [] ts.enum

/-- Dependency graph: id to list of dependency ids, in insertion order. -/
abbrev Graph := List (String × List String)

/-- Mutable state of the detect_cycles traversal: tri-state visitation
(1 = in progress, 2 = done, none = unvisited), the in_cycle flags and the
list of recorded cycle sets (each stored as the path-stack slice). -/
structure DfsSt where
  visited : String → Option Nat
  inCyc : String → Bool
  cycles : List (List String)

/-- Initial traversal state. -/
def initSt : DfsSt := ⟨fun _ => none, fun _ => false, []⟩

/-- Back-edge handling of scoring.py lines 40-45: if the target is on the
path stack, the stack slice from its first occurrence is recorded as a cycle
and every id in the slice is flagged. -/
def recordCycle (node : String) (stk : List String) (s : DfsSt) : DfsSt :=
  if node ∈ stk then
    let cyc := stk.drop (stk.findIdx (fun x => decide (x = node)))
    { s with
      cycles := s.cycles ++ [cyc]
      inCyc := fun x => if x ∈ cyc then true else s.inCyc x }
  else s

/-- Set the visitation mark of one node. -/
def markV (n : String) (k : Nat) (s : DfsSt) : DfsSt :=
  { s with visited := fun x => if x = n then some k else s.visited x }

/-- The recursive dfs of scoring.py lines 35-55, with explicit fuel.
A node outside the graph returns immediately; a node in progress records a
back edge; a done node is skipped; otherwise the node is marked in progress,
pushed on the path stack, its dependency edges are explored in order, and it
is marked done. -/
def dfsVisit (g : Graph) : Nat → String → List String → DfsSt → DfsSt
  | 0, _, _, s => s
  | f + 1, node, stk, s =>
    match alist_get g node with
    | none => s
    | some deps =>
      match s.visited node with
      | some 1 => recordCycle node stk s
      | some 2 => s
      | _ =>
        let s1 := markV node 1 s
        let s2 := deps.foldl (fun acc nb => dfsVisit g f nb (stk ++ [node]) acc) s1
        markV node 2 s2

/-- The root loop of scoring.py lines 57-59: every not-yet-visited key is a
DFS root, in insertion order. The fuel (number of keys + 1) is proved
sufficient below. -/
def detectRun (g : Graph) : DfsSt :=
  g.foldl
    (fun s p => if s.visited p.1 = none then dfsVisit g (g.length + 1) p.1 [] s else s)
    initSt

/-- Graph of a task map, scoring.py line 30. -/
def graphOf (m : List (String × NormalizedTask)) : Graph :=
  m.map (fun p => (p.1, p.2.dependencies))

/-- Embedding of detect_cycles (scoring.py lines 23-61): the recorded cycle
sets and the in_cycle map. -/
def detect_cycles (m : List (String × NormalizedTask)) :
    List (List String) × (String → Bool) :=
  let s := detectRun (graphOf m)
  (s.cycles, s.inCyc)

/-- Strategy weight record. -/
structure Weights where
  urgency : ℚ
  importance : ℚ
  effort : ℚ
  dependency : ℚ
  deriving DecidableEq

/-- The strategy weight table of scoring.py lines 74-79, with the fallback to
smart_balance of line 81 for unrecognized names. -/
def baseWeights (strategy : String) : Weights :=
  if strategy = "smart_balance" then ⟨35/100, 35/100, 15/100, 15/100⟩
  else if strategy = "fastest" then ⟨20/100, 20/100, 45/100, 15/100⟩
  else if strategy = "high_impact" then ⟨20/100, 60/100, 10/100, 10/100⟩
  else if strategy = "deadline" then ⟨70/100, 15/100, 10/100, 5/100⟩
  else ⟨35/100, 35/100, 15/100, 15/100⟩

/-- Optional per-key weight overrides (scoring.py lines 82-83). -/
structure WeightOverrides where
  urgency : Option ℚ
  importance : Option ℚ
  effort : Option ℚ
  dependency : Option ℚ
  deriving DecidableEq

/-- w.update(weights) of scoring.py line 83: each supplied key replaces the
base entry, no re-normalization. -/
def applyOverrides (w : Weights) : Option WeightOverrides → Weights
  | none => w
  | some o =>
    ⟨o.urgency.getD w.urgency, o.importance.getD w.importance,
     o.effort.getD w.effort, o.dependency.getD w.dependency⟩

/-- The default_hours constant of scoring.py line 87. -/
def default_hours : ℚ := 4

/-- Urgency sub-score, scoring.py lines 121-135. -/
def urgencyScore (today : Int) (t : NormalizedTask) : ℚ :=
  match t.due_date with
  | none => 0
  | some due =>
    let days : Int := due - today
    if days < 0 then min (99/100) (9/10 + ((min 30 (-days) : Int) : ℚ) / 100)
    else min 1 (max 0 (1 - (days : ℚ) / 30))

/-- Importance sub-score, scoring.py line 138: clamp to [1,10], divide by 10. -/
def importanceScore (t : NormalizedTask) : ℚ :=
  ((max 1 (min 10 t.importance) : Int) : ℚ) / 10

/-- Hours used by the effort sub-score, scoring.py line 142:
max(0.1, float(t.get('estimated_hours') or default_hours)); a falsy cleaned
value (None or 0.0) falls back to the default. -/
def hoursOf (t : NormalizedTask) : ℚ :=
  max (1/10)
    (match t.estimated_hours with
     | some h => if h = 0 then default_hours else h
     | none => default_hours)

/-- Effort sub-score, scoring.py lines 143-148. -/
def effortScore (t : NormalizedTask) : ℚ :=
  let hours := hoursOf t
  if hours ≤ 1 then 1
  else if 16 ≤ hours then 0
  else 1 - (hours - 1) / 15

/-- Fan-in of a task id, scoring.py lines 109-113: how many dependency
entries of batch members name it (counted with multiplicity); only queried
for ids that are keys of the map, matching the guard at line 112. -/
def dependentsCount (m : List (String × NormalizedTask)) (tid : String) : Nat :=
  (m.map (fun p => p.2.dependencies.count tid)).sum

/-- Maximum fan-in over the batch, scoring.py line 114 (1 for an empty map). -/
def maxDependents (m : List (String × NormalizedTask)) : Nat :=
  if m.isEmpty then 1
  else (m.map (fun p => dependentsCount m p.1)).foldl Nat.max 0

/-- Dependency sub-score, scoring.py line 152. -/
def dependencyScore (m : List (String × NormalizedTask)) (tid : String) : ℚ :=
  if 0 < maxDependents m then (dependentsCount m tid : ℚ) / (maxDependents m : ℚ)
  else 0

/-- One scored result record, scoring.py lines 170-183 (explanation text not
modelled). -/
structure ScoredResult where
  id : String
  title : String
  score : ℚ
  urgency : ℚ
  importance : ℚ
  effort : ℚ
  dependency : ℚ
  issues : List String
  deriving DecidableEq

/-- The weighted aggregate of scoring.py line 156. -/
def aggregate (w : Weights) (today : Int) (m : List (String × NormalizedTask))
    (tid : String) (t : NormalizedTask) : ℚ :=
  w.urgency * urgencyScore today t + w.importance * importanceScore t +
    w.effort * effortScore t + w.dependency * dependencyScore m tid

/-- Scoring of one normalized task, scoring.py lines 117-183: weighted
aggregate, cycle penalty applied after aggregation, issue flags in the order
the source appends them, all emitted figures rounded to 4 places. -/
def scoreTask (w : Weights) (today : Int) (m : List (String × NormalizedTask))
    (ic : String → Bool) (tid : String) (t : NormalizedTask) : ScoredResult :=
  let final0 := aggregate w today m tid t
  let final := if ic tid then final0 * (9/10) else final0
  { id := tid
    title := t.title
    score := round4 final
    urgency := round4 (urgencyScore today t)
    importance := round4 (importanceScore t)
    effort := round4 (effortScore t)
    dependency := round4 (dependencyScore m tid)
    issues :=
      (if ic tid then ["circular_dependency"] else []) ++
        (if t.due_date.isNone then ["no_due_date"] else []) ++
          (if t.estimated_hours.isNone then ["no_estimated_hours"] else []) }

/-- The result list in id_map order, before the final sort (scoring.py
lines 116-183). -/
def preScores (ts : List RawTask) (strategy : String)
    (ov : Option WeightOverrides) (today : Int) : List ScoredResult :=
  let w := applyOverrides (baseWeights strategy) ov
  let m := buildIdMap ts
  let ic := (detect_cycles m).2
  m.map (fun p => scoreTask w today m ic p.1 p.2)

/-- Embedding of compute_scores (scoring.py lines 63-187): normalization,
cycle detection, per-task scoring, then a stable sort by score descending
(Python list.sort with reverse=True is stable). -/
def compute_scores (ts : List RawTask) (strategy : String)
    (ov : Option WeightOverrides) (today : Int) : List ScoredResult :=
  (preScores ts strategy ov today).mergeSort
    (fun a b => decide (b.score ≤ a.score))

/-! Concrete instances used by the scenario claims and witnesses. -/

/-- The task of the deadline scenario: due 5 days before the reference date
(reference date 0, due date -5), importance 8, estimated hours 0.5, no
dependencies. -/
def c1task : RawTask :=
  { id := some "t1", title := some "T one", due_date := .dateVal (-5),
    importance := .intLike 8, estimated_hours := .numLike (1/2),
    dependencies := none }

/-- A task with no due date, default importance and an absent
estimated_hours field. -/
def c2task : RawTask :=
  { id := some "t2", title := some "T two", due_date := .missing,
    importance := .missingOrFalsy, estimated_hours := .missing,
    dependencies := none }

/-- A minimal raw task with the given id and dependency list. -/
def mkDep (i : String) (deps : List String) : RawTask :=
  { id := some i, title := some i, due_date := .missing,
    importance := .missingOrFalsy, estimated_hours := .missing,
    dependencies := some deps }

/-- The three mutually dependent tasks of the cycle scenario. -/
def c3tasks : List RawTask := [mkDep "A" ["B"], mkDep "B" ["C"], mkDep "C" ["A"]]

/-- A raw task on which every optional field is malformed or absent. -/
def c7bad : RawTask :=
  { id := some "bad", title := some "bad", due_date := .unparsableStr,
    importance := .invalid, estimated_hours := .invalid,
    dependencies := none }

/-- A normalized task depending on itself and on an unknown id. -/
def c8t : NormalizedTask := normalizeTask 0 (mkDep "A" ["A", "zzz"])

/-- Two identical tasks under different ids: an exact score tie. -/
def c5tasks : List RawTask := [mkDep "X" [], mkDep "Y" []]

/-- The deadline scenario task pushed to 40 days overdue. -/
def c6task2 : RawTask := { c1task with due_date := RawDate.dateVal (-40) }

/-! Definitions supporting the cycle-detection proofs. -/

/-- Number of graph entries whose key is unvisited; the DFS fuel is measured
against it. -/
def unvisitedCount (g : Graph) (s : DfsSt) : Nat :=
  g.countP (fun p => decide (s.visited p.1 = none))

/-- The nodes marked in progress are exactly the nodes on the path stack. -/
def StackInv (s : DfsSt) (stk : List String) : Prop :=
  ∀ x, s.visited x = some 1 ↔ x ∈ stk

/-- Visitation marks only take the values used by the source. -/
def VisRange (s : DfsSt) : Prop :=
  ∀ x, s.visited x = none ∨ s.visited x = some 1 ∨ s.visited x = some 2

/-- Once the node A is marked done, a one-element cycle through A has been
recorded and A is flagged. -/
def QA (A : String) (s : DfsSt) : Prop :=
  s.visited A = some 2 → [A] ∈ s.cycles ∧ s.inCyc A = true

/-- Postcondition pack of one DFS call: the stack invariant and mark range
are preserved, the unvisited count does not grow, done marks persist,
recorded cycles and flags persist, and the QA property is preserved. -/
def DfsPost (g : Graph) (A : String) (stk : List String) (s s2 : DfsSt) : Prop :=
  StackInv s2 stk ∧ VisRange s2 ∧
    unvisitedCount g s2 ≤ unvisitedCount g s ∧
    (∀ x, s.visited x = some 2 → s2.visited x = some 2) ∧
    (∀ c, c ∈ s.cycles → c ∈ s2.cycles) ∧
    (∀ x, s.inCyc x = true → s2.inCyc x = true) ∧
    (QA A s → QA A s2)

/-- Graph with each dependency list restricted to the given key set. -/
def restrictG (ks : List String) (g : Graph) : Graph :=
  g.map (fun p => (p.1, p.2.filter (fun d => decide (d ∈ ks))))

/-- Task map with each dependency list restricted to the ids present in the
map; used to state that unknown dependency ids are inert. -/
def restrictDeps (m : List (String × NormalizedTask)) :
    List (String × NormalizedTask) :=
  m.map (fun p =>
    (p.1,
      { p.2 with
        dependencies :=
          p.2.dependencies.filter (fun d => decide (d ∈ m.map Prod.fst)) }))

/-! Theorems. -/

/-- A result list that is already sorted (score descending) is returned
unchanged by the final sort. -/
theorem compute_eq_pre_of_sorted (ts : List RawTask) (strategy : String)
    (ov : Option WeightOverrides) (today : Int)
    (h : (preScores ts strategy ov today).Pairwise (fun a b => b.score ≤ a.score)) :
    compute_scores ts strategy ov today = preScores ts strategy ov today := by
  unfold compute_scores
  exact List.mergeSort_of_sorted (h.imp fun hle => decide_eq_true hle)

unseal Rat.mul Rat.inv Rat.add Rat.sub in
/-- C1, counterexample: for the deadline scenario task (due 5 days before
the reference date, importance 8, estimated hours 0.5, no dependencies,
strategy deadline, no overrides) the engine emits sub-scores urgency 0.95,
importance 0.8, effort 1.0, dependency 0.0, but the final score is 0.8850,
not the claimed 0.8050. -/
theorem C1_counterexample :
    (compute_scores [c1task] "deadline" none 0).map
        (fun r => (r.urgency, r.importance, r.effort, r.dependency, r.score)) =
      [(19/20, 4/5, 1, 0, 177/200)] ∧ (177/200 : ℚ) ≠ 8050/10000 := by
  rw [compute_eq_pre_of_sorted _ _ _ _ (by decide)]
  constructor
  · decide
  · norm_num

unseal Rat.mul Rat.inv Rat.add Rat.sub in
/-- C1, amended: for the deadline scenario task the sub-scores are
urgency 0.95, importance 0.8, effort 1.0, dependency 0.0 and the final score
is 0.8850 = 0.7 * 0.95 + 0.15 * 0.8 + 0.1 * 1.0 + 0.05 * 0. -/
theorem C1_amended_scores :
    (compute_scores [c1task] "deadline" none 0).map
        (fun r => (r.urgency, r.importance, r.effort, r.dependency, r.score)) =
      [(19/20, 4/5, 1, 0, 177/200)] ∧
      (177/200 : ℚ) = 7/10 * (19/20) + 15/100 * (4/5) + 1/10 * 1 + 5/100 * 0 := by
  rw [compute_eq_pre_of_sorted _ _ _ _ (by decide)]
  constructor
  · decide
  · norm_num

unseal Rat.mul Rat.inv Rat.add Rat.sub in
/-- C2, code evaluation at the failing input: for a task whose
estimated_hours field is absent from the original input (and with no due
date), the issues list is exactly ["no_due_date"]; the no_estimated_hours
flag is not emitted, because the source tests the cleaned record, in which
the field is always set. -/
theorem C2_flag_never_emitted :
    (compute_scores [c2task] "smart_balance" none 0).map (fun r => r.issues) =
        [["no_due_date"]] ∧
      "no_estimated_hours" ∉
        (compute_scores [c2task] "smart_balance" none 0).flatMap
          (fun r => r.issues) := by
  rw [compute_eq_pre_of_sorted _ _ _ _ (by decide)]
  constructor
  · decide
  · decide

/-- The urgency value of an overdue task, written with the days-overdue
count today - due. -/
theorem urgencyScore_overdue (today due : Int) (t : NormalizedTask)
    (h : t.due_date = some due) (hlt : due - today < 0) :
    urgencyScore today t =
      min (99/100) (9/10 + ((min 30 (today - due) : Int) : ℚ) / 100) := by
  unfold urgencyScore
  rw [h]
  simp only [if_pos hlt]
  rw [neg_sub]

/-- C6: for a task due strictly before the reference date, urgency equals
min(0.99, 0.9 + min(30, days overdue)/100); it is monotonically
non-decreasing in the number of days overdue, capped at 0.99 (strictly under
1.0), and saturated at 0.99 whenever the task is more than 30 days overdue. -/
theorem C6_overdue_urgency (today due due2 : Int) (t t2 : NormalizedTask)
    (h : t.due_date = some due) (hlt : due - today < 0)
    (h2 : t2.due_date = some due2) (hlt2 : due2 - today < 0) :
    urgencyScore today t =
        min (99/100) (9/10 + ((min 30 (today - due) : Int) : ℚ) / 100) ∧
      (today - due ≤ today - due2 →
        urgencyScore today t ≤ urgencyScore today t2) ∧
      urgencyScore today t ≤ 99/100 ∧ urgencyScore today t < 1 ∧
      (30 < today - due → urgencyScore today t = 99/100) := by
  have e1 := urgencyScore_overdue today due t h hlt
  have e2 := urgencyScore_overdue today due2 t2 h2 hlt2
  refine ⟨e1, ?_, ?_, ?_, ?_⟩
  · intro hd
    rw [e1, e2]
    have hmin : (min 30 (today - due) : Int) ≤ min 30 (today - due2) := by omega
    have hcast : ((min 30 (today - due) : Int) : ℚ) ≤
        ((min 30 (today - due2) : Int) : ℚ) := by exact_mod_cast hmin
    apply min_le_min le_rfl
    linarith
  · rw [e1]; exact min_le_left _ _
  · rw [e1]
    have hle : min (99/100 : ℚ) (9/10 + ((min 30 (today - due) : Int) : ℚ) / 100) ≤
        99/100 := min_le_left _ _
    linarith
  · intro h30
    rw [e1]
    have : (min 30 (today - due) : Int) = 30 := by omega
    rw [this]
    norm_num

/-- The urgency sub-score always lies in [0,1]. -/
theorem urgencyScore_bounds (today : Int) (t : NormalizedTask) :
    0 ≤ urgencyScore today t ∧ urgencyScore today t ≤ 1 := by
  unfold urgencyScore
  cases hd : t.due_date with
  | none => norm_num
  | some due =>
    simp only
    split_ifs with h
    · have h1 : (1 : ℤ) ≤ min 30 (-(due - today)) := by omega
      have h2 : (1 : ℚ) ≤ ((min 30 (-(due - today)) : ℤ) : ℚ) := by exact_mod_cast h1
      constructor
      · exact le_min (by norm_num) (by linarith)
      · exact le_trans (min_le_left _ _) (by norm_num)
    · constructor
      · exact le_min (by norm_num) (le_max_left _ _)
      · exact min_le_left _ _

/-- The importance sub-score always lies in [0,1]. -/
theorem importanceScore_bounds (t : NormalizedTask) :
    0 ≤ importanceScore t ∧ importanceScore t ≤ 1 := by
  unfold importanceScore
  have h1 : (1 : ℤ) ≤ max 1 (min 10 t.importance) := le_max_left _ _
  have h2 : max 1 (min 10 t.importance) ≤ 10 := by omega
  have h1q : (1 : ℚ) ≤ ((max 1 (min 10 t.importance) : ℤ) : ℚ) := by exact_mod_cast h1
  have h2q : ((max 1 (min 10 t.importance) : ℤ) : ℚ) ≤ 10 := by exact_mod_cast h2
  constructor
  · linarith
  · linarith

/-- The effort sub-score always lies in [0,1]. -/
theorem effortScore_bounds (t : NormalizedTask) :
    0 ≤ effortScore t ∧ effortScore t ≤ 1 := by
  unfold effortScore
  simp only
  split_ifs with h1 h2
  · norm_num
  · norm_num
  · push_neg at h1 h2
    constructor
    · linarith
    · linarith

/-- The starting value is below a foldl of Nat.max. -/
theorem init_le_foldl_max (l : List ℕ) (init : ℕ) :
    init ≤ l.foldl Nat.max init := by
  induction l generalizing init with
  | nil => exact le_rfl
  | cons b l ih => exact le_trans (Nat.le_max_left init b) (ih (Nat.max init b))

/-- Every member is below a foldl of Nat.max. -/
theorem mem_le_foldl_max (l : List ℕ) (a : ℕ) (ha : a ∈ l) (init : ℕ) :
    a ≤ l.foldl Nat.max init := by
  induction l generalizing init with
  | nil => cases ha
  | cons b l ih =>
    rcases List.mem_cons.mp ha with h | h
    · subst h
      exact le_trans (Nat.le_max_right init a) (init_le_foldl_max l _)
    · exact ih h _

/-- The fan-in of a batch member is bounded by the maximum fan-in. -/
theorem dependentsCount_le_max (m : List (String × NormalizedTask))
    (tid : String) (t : NormalizedTask) (hm : (tid, t) ∈ m) :
    dependentsCount m tid ≤ maxDependents m := by
  unfold maxDependents
  have hne : m.isEmpty = false := by
    cases m with
    | nil => cases hm
    | cons a l => rfl
  rw [hne]
  simp only [Bool.false_eq_true, if_false]
  exact mem_le_foldl_max (m.map (fun p => dependentsCount m p.1))
    (dependentsCount m tid)
    (List.mem_map.mpr ⟨(tid, t), hm, rfl⟩) 0

/-- The dependency sub-score of a batch member lies in [0,1]. -/
theorem dependencyScore_bounds (m : List (String × NormalizedTask))
    (tid : String) (t : NormalizedTask) (hm : (tid, t) ∈ m) :
    0 ≤ dependencyScore m tid ∧ dependencyScore m tid ≤ 1 := by
  unfold dependencyScore
  split_ifs with h
  · have hpos : (0 : ℚ) < (maxDependents m : ℚ) := by exact_mod_cast h
    constructor
    · exact div_nonneg (by positivity) (le_of_lt hpos)
    · rw [div_le_one hpos]
      exact_mod_cast dependentsCount_le_max m tid t hm
  · norm_num

/-- Every strategy string selects nonnegative weights summing to 1. -/
theorem baseWeights_facts (strategy : String) :
    0 ≤ (baseWeights strategy).urgency ∧ 0 ≤ (baseWeights strategy).importance ∧
      0 ≤ (baseWeights strategy).effort ∧ 0 ≤ (baseWeights strategy).dependency ∧
      (baseWeights strategy).urgency + (baseWeights strategy).importance +
        (baseWeights strategy).effort + (baseWeights strategy).dependency = 1 := by
  unfold baseWeights
  split_ifs <;> norm_num

/-- C4: for every task of the batch and every strategy with no weight
overrides, each of the four sub-scores lies in [0,1] before rounding, the
weighted aggregate (the final score before rounding) lies in [0,1], and the
0.9 cycle penalty can only decrease it. -/
theorem C4_bounds (strategy : String) (today : Int)
    (m : List (String × NormalizedTask)) (tid : String) (t : NormalizedTask)
    (hm : (tid, t) ∈ m) :
    (0 ≤ urgencyScore today t ∧ urgencyScore today t ≤ 1) ∧
      (0 ≤ importanceScore t ∧ importanceScore t ≤ 1) ∧
      (0 ≤ effortScore t ∧ effortScore t ≤ 1) ∧
      (0 ≤ dependencyScore m tid ∧ dependencyScore m tid ≤ 1) ∧
      (0 ≤ aggregate (applyOverrides (baseWeights strategy) none) today m tid t ∧
        aggregate (applyOverrides (baseWeights strategy) none) today m tid t ≤ 1) ∧
      aggregate (applyOverrides (baseWeights strategy) none) today m tid t * (9/10) ≤
        aggregate (applyOverrides (baseWeights strategy) none) today m tid t := by
  have hu := urgencyScore_bounds today t
  have hi := importanceScore_bounds t
  have he := effortScore_bounds t
  have hd := dependencyScore_bounds m tid t hm
  have hw := baseWeights_facts strategy
  have hov : applyOverrides (baseWeights strategy) none = baseWeights strategy := rfl
  rw [hov]
  obtain ⟨hw1, hw2, hw3, hw4, hwsum⟩ := hw
  have hagg : 0 ≤ aggregate (baseWeights strategy) today m tid t ∧
      aggregate (baseWeights strategy) today m tid t ≤ 1 := by
    unfold aggregate
    constructor
    · have p1 := mul_nonneg hw1 hu.1
      have p2 := mul_nonneg hw2 hi.1
      have p3 := mul_nonneg hw3 he.1
      have p4 := mul_nonneg hw4 hd.1
      linarith
    · have p1 := mul_le_mul_of_nonneg_left hu.2 hw1
      have p2 := mul_le_mul_of_nonneg_left hi.2 hw2
      have p3 := mul_le_mul_of_nonneg_left he.2 hw3
      have p4 := mul_le_mul_of_nonneg_left hd.2 hw4
      linarith
  exact ⟨hu, hi, he, hd, hagg, by linarith [hagg.1]⟩

/-- The output has one result per id-map entry. -/
theorem compute_scores_length (ts : List RawTask) (strategy : String)
    (ov : Option WeightOverrides) (today : Int) :
    (compute_scores ts strategy ov today).length = (buildIdMap ts).length := by
  simp [compute_scores, preScores]

/-- C7: the engine is a total function of its inputs and malformed
individual fields degrade to their documented defaults: invalid or falsy
importance becomes 5, invalid or absent estimated hours becomes 4.0,
an unparsable due date becomes no-due-date (and is flagged no_due_date in
the issues list), absent dependencies become the empty list; every
normalized task still yields exactly one scored result. -/
theorem C7_malformed_defaults (ts : List RawTask) (strategy : String)
    (ov : Option WeightOverrides) (today : Int) :
    (compute_scores ts strategy ov today).length = (buildIdMap ts).length ∧
      (∀ i t, t.importance = RawImportance.invalid →
        (normalizeTask i t).importance = 5) ∧
      (∀ i t, t.importance = RawImportance.missingOrFalsy →
        (normalizeTask i t).importance = 5) ∧
      (∀ i t, t.estimated_hours = RawHours.invalid →
        (normalizeTask i t).estimated_hours = some 4) ∧
      (∀ i t, t.estimated_hours = RawHours.missing →
        (normalizeTask i t).estimated_hours = some 4) ∧
      (∀ i t, t.due_date = RawDate.unparsableStr →
        (normalizeTask i t).due_date = none) ∧
      (∀ i t, t.dependencies = none → (normalizeTask i t).dependencies = []) ∧
      (∀ w d m ic tid t, t.due_date = none →
        "no_due_date" ∈ (scoreTask w d m ic tid t).issues) := by
  refine ⟨compute_scores_length ts strategy ov today, ?_, ?_, ?_, ?_, ?_, ?_, ?_⟩
  · intro i t h; simp [normalizeTask, normImportance, h]
  · intro i t h; simp [normalizeTask, normImportance, h]
  · intro i t h; simp [normalizeTask, normHours, h]
  · intro i t h; simp [normalizeTask, normHours, h]
  · intro i t h; simp [normalizeTask, parse_due_date, h]
  · intro i t h; simp [normalizeTask, h]
  · intro w d m ic tid t h
    simp [scoreTask, h]

/-- Lookup after a pointwise key update of an association list. -/
theorem get_map_update {β : Type} (m : List (String × β)) (k k2 : String) (v : β) :
    alist_get (m.map (fun p => if p.1 = k then (k, v) else p)) k2 =
      if k2 = k then (alist_get m k).map (fun _ => v) else alist_get m k2 := by
  induction m with
  | nil => by_cases h : k2 = k <;> simp [alist_get, h]
  | cons p l ih =>
    by_cases h1 : p.1 = k
    · by_cases h3 : k2 = k
      · subst h3; simp [alist_get, h1, ih]
      · have h4 : ¬ k = k2 := fun h => h3 h.symm
        simp [alist_get, h1, ih, h3, h4]
    · by_cases h2 : p.1 = k2
      · have h3 : ¬ k2 = k := fun h => h1 (h ▸ h2)
        simp [alist_get, h1, h2, h3]
      · simp [alist_get, h1, h2, ih]

/-- A key is present in an association list iff its lookup is some. -/
theorem mem_keys_iff_get {β : Type} (m : List (String × β)) (k : String) :
    k ∈ m.map Prod.fst ↔ ∃ v, alist_get m k = some v := by
  induction m with
  | nil => simp [alist_get]
  | cons p l ih =>
    by_cases h : p.1 = k
    · simp [alist_get, h]
    · have h4 : ¬ k = p.1 := fun hk => h hk.symm
      simp [alist_get, h, h4, ih]

/-- Lookup distributes over list append. -/
theorem get_append {β : Type} (m l2 : List (String × β)) (k : String) :
    alist_get (m ++ l2) k = (alist_get m k).or (alist_get l2 k) := by
  induction m with
  | nil => simp [alist_get]
  | cons p l ih =>
    by_cases h : p.1 = k <;> simp [alist_get, h, ih]

/-- Lookup fails exactly on absent keys. -/
theorem alist_get_eq_none_iff {β : Type} (m : List (String × β)) (k : String) :
    alist_get m k = none ↔ k ∉ m.map Prod.fst := by
  rw [mem_keys_iff_get]
  cases h : alist_get m k <;> simp [h]

/-- Lookup after a Python-style dict assignment. -/
theorem get_upsert {β : Type} (m : List (String × β)) (k k2 : String) (v : β) :
    alist_get (upsert m k v) k2 = if k2 = k then some v else alist_get m k2 := by
  unfold upsert
  by_cases hk : k ∈ m.map Prod.fst
  · rw [if_pos hk, get_map_update]
    by_cases h3 : k2 = k
    · obtain ⟨w, hw⟩ := (mem_keys_iff_get m k).mp hk
      simp [h3, hw]
    · simp [h3]
  · rw [if_neg hk, get_append]
    by_cases h3 : k2 = k
    · subst h3
      rw [(alist_get_eq_none_iff m k2).mpr hk]
      simp [alist_get]
    · have h4 : ¬ k = k2 := fun h => h3 h.symm
      simp [alist_get, h3, h4]

/-- Unfolding of the id-map fold on an empty input. -/
theorem buildIdMapFrom_nil (m0 : List (String × NormalizedTask)) :
    buildIdMapFrom m0 [] = m0 := rfl

/-- Unfolding of the id-map fold on one more record. -/
theorem buildIdMapFrom_cons (m0 : List (String × NormalizedTask))
    (p : Nat × RawTask) (l : List (Nat × RawTask)) :
    buildIdMapFrom m0 (p :: l) =
      buildIdMapFrom (upsert m0 (deriveId p.2 p.1) (normalizeTask p.1 p.2)) l := rfl

/-- Last assignment wins: lookup in the id map built from a record list
finds the normalization of the last record whose derived id matches. -/
theorem get_buildIdMapFrom (l : List (Nat × RawTask))
    (m0 : List (String × NormalizedTask)) (tid : String) :
    alist_get (buildIdMapFrom m0 l) tid =
      ((l.reverse.find? (fun p => decide (deriveId p.2 p.1 = tid))).map
        (fun p => normalizeTask p.1 p.2)).or (alist_get m0 tid) := by
  induction l generalizing m0 with
  | nil => simp [buildIdMapFrom_nil]
  | cons p l ih =>
    rw [buildIdMapFrom_cons, ih, get_upsert]
    rw [List.reverse_cons, List.find?_append]
    cases hf : l.reverse.find? (fun p => decide (deriveId p.2 p.1 = tid)) with
    | some q => simp
    | none =>
      simp only [Option.none_or, Option.map_none]
      by_cases hk : deriveId p.2 p.1 = tid
      · simp [List.find?, hk]
      · have hk2 : ¬ tid = deriveId p.2 p.1 := fun h => hk h.symm
        simp [List.find?, hk, hk2]

/-- Keys after a dict assignment. -/
theorem keys_upsert {β : Type} (m : List (String × β)) (k : String) (v : β) :
    (upsert m k v).map Prod.fst =
      if k ∈ m.map Prod.fst then m.map Prod.fst else m.map Prod.fst ++ [k] := by
  unfold upsert
  split_ifs with h
  · rw [List.map_map]
    apply List.map_congr_left
    intro p _
    by_cases hp : p.1 = k <;> simp [hp]
  · simp

/-- Key membership after a dict assignment. -/
theorem mem_keys_upsert {β : Type} (m : List (String × β)) (k : String) (v : β)
    (k2 : String) :
    k2 ∈ (upsert m k v).map Prod.fst ↔ k2 ∈ m.map Prod.fst ∨ k2 = k := by
  rw [keys_upsert]
  split_ifs with h
  · constructor
    · exact Or.inl
    · rintro (hh | rfl)
      · exact hh
      · exact h
  · simp

/-- Key distinctness is preserved by dict assignment. -/
theorem keys_nodup_upsert {β : Type} (m : List (String × β)) (k : String) (v : β)
    (h : (m.map Prod.fst).Nodup) : ((upsert m k v).map Prod.fst).Nodup := by
  rw [keys_upsert]
  split_ifs with hk
  · exact h
  · simp [List.nodup_append, h, hk]

/-- The id map never has duplicate keys. -/
theorem keys_nodup_buildIdMapFrom (l : List (Nat × RawTask))
    (m0 : List (String × NormalizedTask)) (h : (m0.map Prod.fst).Nodup) :
    ((buildIdMapFrom m0 l).map Prod.fst).Nodup := by
  induction l generalizing m0 with
  | nil => exact h
  | cons p l ih => exact ih _ (keys_nodup_upsert _ _ _ h)

/-- The keys of the id map are exactly the derived ids. -/
theorem keys_mem_buildIdMapFrom (l : List (Nat × RawTask))
    (m0 : List (String × NormalizedTask)) (k : String) :
    k ∈ (buildIdMapFrom m0 l).map Prod.fst ↔
      k ∈ m0.map Prod.fst ∨ k ∈ l.map (fun p => deriveId p.2 p.1) := by
  induction l generalizing m0 with
  | nil => simp [buildIdMapFrom_nil]
  | cons p l ih =>
    rw [buildIdMapFrom_cons, ih, mem_keys_upsert]
    simp only [List.map_cons, List.mem_cons]
    tauto

/-- The id map has one entry per distinct derived id. -/
theorem buildIdMap_length (ts : List RawTask) :
    (buildIdMap ts).length =
      ((ts.enum.map (fun p => deriveId p.2 p.1)).dedup).length := by
  have hnd : ((buildIdMap ts).map Prod.fst).Nodup :=
    keys_nodup_buildIdMapFrom _ _ (by simp)
  have hd : ((ts.enum.map (fun p => deriveId p.2 p.1)).dedup).Nodup :=
    List.nodup_dedup _
  have h1 : ((buildIdMap ts).map Prod.fst).toFinset =
      ((ts.enum.map (fun p => deriveId p.2 p.1)).dedup).toFinset := by
    ext x
    have := keys_mem_buildIdMapFrom ts.enum [] x
    simp only [List.mem_toFinset, List.mem_dedup]
    simpa [buildIdMap] using this
  have h2 := List.toFinset_card_of_nodup hnd
  have h3 := List.toFinset_card_of_nodup hd
  rw [h1] at h2
  rw [h3] at h2
  have h4 : ((buildIdMap ts).map Prod.fst).length = (buildIdMap ts).length :=
    List.length_map _ _
  omega

/-- The ids of the pre-sort results are the id-map keys in order. -/
theorem preScores_map_id (ts : List RawTask) (strategy : String)
    (ov : Option WeightOverrides) (today : Int) :
    (preScores ts strategy ov today).map (fun r => r.id) =
      (buildIdMap ts).map Prod.fst := by
  simp only [preScores]
  rw [List.map_map]
  rfl

/-- The output ids are a permutation of the id-map keys. -/
theorem compute_ids_perm (ts : List RawTask) (strategy : String)
    (ov : Option WeightOverrides) (today : Int) :
    ((compute_scores ts strategy ov today).map (fun r => r.id)).Perm
      ((buildIdMap ts).map Prod.fst) := by
  unfold compute_scores
  have hp := (List.mergeSort_perm (preScores ts strategy ov today)
    (fun a b => decide (b.score ≤ a.score))).map (fun r => r.id)
  rw [preScores_map_id] at hp
  exact hp

/-- C10: duplicate derived ids collapse. The output has exactly one result
per distinct derived id (so its length is the number of distinct derived
ids, possibly smaller than the input length), output ids are distinct, and
the id map holds, for each id, the normalization of the last input record
that derived it. -/
theorem C10_last_wins (ts : List RawTask) (strategy : String)
    (ov : Option WeightOverrides) (today : Int) :
    (compute_scores ts strategy ov today).length =
        ((ts.enum.map (fun p => deriveId p.2 p.1)).dedup).length ∧
      ((compute_scores ts strategy ov today).map (fun r => r.id)).Nodup ∧
      ∀ tid, alist_get (buildIdMap ts) tid =
        (ts.enum.reverse.find? (fun p => decide (deriveId p.2 p.1 = tid))).map
          (fun p => normalizeTask p.1 p.2) := by
  refine ⟨?_, ?_, ?_⟩
  · rw [compute_scores_length, buildIdMap_length]
  · have hnd : ((buildIdMap ts).map Prod.fst).Nodup :=
      keys_nodup_buildIdMapFrom _ _ (by simp)
    exact (compute_ids_perm ts strategy ov today).symm.nodup hnd
  · intro tid
    have h := get_buildIdMapFrom ts.enum [] tid
    simpa [buildIdMap, alist_get] using h

/-- C3: a task flagged in_cycle gets exactly 0.9 times the weighted
aggregate, applied after aggregation, and the circular_dependency flag;
a task not flagged keeps the plain aggregate and no flag. The scored result
of every id-map entry is in the output. -/
theorem C3_cycle_penalty (ts : List RawTask) (strategy : String)
    (ov : Option WeightOverrides) (today : Int) (tid : String)
    (t : NormalizedTask) (hm : (tid, t) ∈ buildIdMap ts) :
    scoreTask (applyOverrides (baseWeights strategy) ov) today (buildIdMap ts)
        (detect_cycles (buildIdMap ts)).2 tid t ∈
        compute_scores ts strategy ov today ∧
      ((detect_cycles (buildIdMap ts)).2 tid = true →
        (scoreTask (applyOverrides (baseWeights strategy) ov) today
            (buildIdMap ts) (detect_cycles (buildIdMap ts)).2 tid t).score =
          round4
            (aggregate (applyOverrides (baseWeights strategy) ov) today
                (buildIdMap ts) tid t * (9/10)) ∧
        "circular_dependency" ∈
          (scoreTask (applyOverrides (baseWeights strategy) ov) today
            (buildIdMap ts) (detect_cycles (buildIdMap ts)).2 tid t).issues) ∧
      ((detect_cycles (buildIdMap ts)).2 tid = false →
        (scoreTask (applyOverrides (baseWeights strategy) ov) today
            (buildIdMap ts) (detect_cycles (buildIdMap ts)).2 tid t).score =
          round4
            (aggregate (applyOverrides (baseWeights strategy) ov) today
              (buildIdMap ts) tid t) ∧
        "circular_dependency" ∉
          (scoreTask (applyOverrides (baseWeights strategy) ov) today
            (buildIdMap ts) (detect_cycles (buildIdMap ts)).2 tid t).issues) := by
  refine ⟨?_, ?_, ?_⟩
  · unfold compute_scores
    rw [List.mem_mergeSort]
    simp only [preScores]
    exact List.mem_map.mpr ⟨(tid, t), hm, rfl⟩
  · intro hc
    constructor
    · simp [scoreTask, hc]
    · simp [scoreTask, hc]
  · intro hc
    constructor
    · simp [scoreTask, hc]
    · simp only [scoreTask, hc]
      by_cases h1 : t.due_date.isNone <;> by_cases h2 : t.estimated_hours.isNone <;>
        simp [h1, h2]

/-- The descending-score comparison is transitive. -/
theorem score_desc_trans (a b c : ScoredResult)
    (h1 : decide (b.score ≤ a.score) = true)
    (h2 : decide (c.score ≤ b.score) = true) :
    decide (c.score ≤ a.score) = true := by
  simp only [decide_eq_true_eq] at *
  exact le_trans h2 h1

/-- The descending-score comparison is total. -/
theorem score_desc_total (a b : ScoredResult) :
    (decide (b.score ≤ a.score) || decide (a.score ≤ b.score)) = true := by
  rcases le_total a.score b.score with h | h <;> simp [h]

/-- With pairwise distinct derived ids the id map lists the input records in
input order, each normalized. -/
theorem buildIdMapFrom_of_nodup (l : List (Nat × RawTask))
    (m0 : List (String × NormalizedTask))
    (h1 : (l.map (fun p => deriveId p.2 p.1)).Nodup)
    (h2 : ∀ p ∈ l, deriveId p.2 p.1 ∉ m0.map Prod.fst) :
    buildIdMapFrom m0 l =
      m0 ++ l.map (fun p => (deriveId p.2 p.1, normalizeTask p.1 p.2)) := by
  induction l generalizing m0 with
  | nil => simp [buildIdMapFrom_nil]
  | cons p l ih =>
    rw [buildIdMapFrom_cons]
    have hk : deriveId p.2 p.1 ∉ m0.map Prod.fst := h2 p (List.mem_cons_self p l)
    have hup : upsert m0 (deriveId p.2 p.1) (normalizeTask p.1 p.2) =
        m0 ++ [(deriveId p.2 p.1, normalizeTask p.1 p.2)] := by
      unfold upsert
      rw [if_neg hk]
    rw [hup]
    simp only [List.map_cons, List.nodup_cons] at h1
    rw [ih _ h1.2]
    · simp
    · intro q hq
      rw [List.map_append]
      simp only [List.mem_append]
      rintro (hin | hin)
      · exact h2 q (List.mem_cons_of_mem p hq) hin
      · simp only [List.map_cons, List.map_nil, List.mem_singleton] at hin
        exact h1.1 (hin ▸ List.mem_map.mpr ⟨q, hq, rfl⟩)

/-- With pairwise distinct derived ids the id map is the enumerated input,
normalized, in order. -/
theorem buildIdMap_of_nodup (ts : List RawTask)
    (hids : (ts.enum.map (fun p => deriveId p.2 p.1)).Nodup) :
    buildIdMap ts =
      ts.enum.map (fun p => (deriveId p.2 p.1, normalizeTask p.1 p.2)) := by
  unfold buildIdMap
  rw [buildIdMapFrom_of_nodup ts.enum [] hids (by simp)]
  simp

/-- C5: the output is sorted by rounded final score descending, and any two
results with equal scores that appear in some order in the input-order
scored list appear in the same order in the output (sort stability),
assuming all derived ids are distinct. -/
theorem C5_sorted_stable (ts : List RawTask) (strategy : String)
    (ov : Option WeightOverrides) (today : Int)
    (hids : (ts.enum.map (fun p => deriveId p.2 p.1)).Nodup) :
    (compute_scores ts strategy ov today).Pairwise
        (fun a b => b.score ≤ a.score) ∧
      ∀ a b,
        List.Sublist [a, b] (ts.enum.map (fun p =>
          scoreTask (applyOverrides (baseWeights strategy) ov) today
            (buildIdMap ts) (detect_cycles (buildIdMap ts)).2
            (deriveId p.2 p.1) (normalizeTask p.1 p.2))) →
        a.score = b.score →
        List.Sublist [a, b] (compute_scores ts strategy ov today) := by
  have hpre : preScores ts strategy ov today =
      ts.enum.map (fun p =>
        scoreTask (applyOverrides (baseWeights strategy) ov) today
          (buildIdMap ts) (detect_cycles (buildIdMap ts)).2
          (deriveId p.2 p.1) (normalizeTask p.1 p.2)) := by
    simp only [preScores]
    have hc := congrArg
      (List.map (fun p : String × NormalizedTask =>
        scoreTask (applyOverrides (baseWeights strategy) ov) today
          (buildIdMap ts) (detect_cycles (buildIdMap ts)).2 p.1 p.2))
      (buildIdMap_of_nodup ts hids)
    rw [List.map_map] at hc
    exact hc
  constructor
  · have hs := @List.sorted_mergeSort ScoredResult
      (fun a b => decide (b.score ≤ a.score))
      score_desc_trans score_desc_total (preScores ts strategy ov today)
    exact hs.imp fun h => of_decide_eq_true h
  · intro a b hab hscore
    rw [← hpre] at hab
    unfold compute_scores
    exact List.pair_sublist_mergeSort score_desc_trans score_desc_total
      (decide_eq_true (le_of_eq hscore.symm)) hab

/-- Restricting dependency lists does not change the key list. -/
theorem keys_restrictG (ks : List String) (g : Graph) :
    (restrictG ks g).map Prod.fst = g.map Prod.fst := by
  unfold restrictG
  rw [List.map_map]
  rfl

/-- Lookup in a dependency-restricted graph. -/
theorem get_restrictG (ks : List String) (g : Graph) (n : String) :
    alist_get (restrictG ks g) n =
      (alist_get g n).map (fun deps => deps.filter (fun d => decide (d ∈ ks))) := by
  induction g with
  | nil => simp [restrictG, alist_get]
  | cons p l ih =>
    simp only [restrictG, List.map_cons] at ih ⊢
    by_cases h : p.1 = n
    · simp [alist_get, h]
    · simp [alist_get, h, ih]

/-- A DFS call on a node outside the graph is a no-op. -/
theorem dfsVisit_not_key (g : Graph) (f : Nat) (n : String) (stk : List String)
    (s : DfsSt) (h : alist_get g n = none) : dfsVisit g f n stk s = s := by
  cases f with
  | zero => rfl
  | succ f => simp [dfsVisit, h]

/-- The DFS behaves identically on the graph with unknown dependency ids
removed: an edge to an id outside the key set is never followed. -/
theorem dfsVisit_restrict (g : Graph) :
    ∀ (f : Nat) (node : String) (stk : List String) (s : DfsSt),
      dfsVisit (restrictG (g.map Prod.fst) g) f node stk s =
        dfsVisit g f node stk s := by
  intro f
  induction f with
  | zero => intro node stk s; rfl
  | succ f ih =>
    intro node stk s
    cases hg : alist_get g node with
    | none =>
      have hg2 : alist_get (restrictG (g.map Prod.fst) g) node = none := by
        rw [get_restrictG, hg]
        rfl
      simp [dfsVisit, hg, hg2]
    | some deps =>
      have hg2 : alist_get (restrictG (g.map Prod.fst) g) node =
          some (deps.filter (fun d => decide (d ∈ g.map Prod.fst))) := by
        rw [get_restrictG, hg]
        rfl
      have hfold : ∀ (l : List String) (stk2 : List String) (s2 : DfsSt),
          (l.filter (fun d => decide (d ∈ g.map Prod.fst))).foldl
              (fun acc nb =>
                dfsVisit (restrictG (g.map Prod.fst) g) f nb stk2 acc) s2 =
            l.foldl (fun acc nb => dfsVisit g f nb stk2 acc) s2 := by
        intro l
        induction l with
        | nil => intro stk2 s2; rfl
        | cons d l ihl =>
          intro stk2 s2
          by_cases hd : d ∈ g.map Prod.fst
          · rw [List.filter_cons, if_pos (by simpa using hd)]
            simp only [List.foldl_cons]
            rw [ih]
            exact ihl _ _
          · have hnone : alist_get g d = none :=
              (alist_get_eq_none_iff g d).mpr hd
            rw [List.filter_cons, if_neg (by simpa using hd), List.foldl_cons,
              dfsVisit_not_key g f d stk2 s2 hnone]
            exact ihl _ _
      simp only [dfsVisit, hg, hg2]
      cases hv : s.visited node with
      | none => simp only [hfold]
      | some k =>
        match k with
        | 0 => simp only [hfold]
        | 1 => rfl
        | 2 => rfl
        | (k + 3) => simp only [hfold]

/-- The root loop behaves identically on the restricted graph. -/
theorem detectRun_restrict (g : Graph) :
    detectRun (restrictG (g.map Prod.fst) g) = detectRun g := by
  unfold detectRun
  have hlen : (restrictG (g.map Prod.fst) g).length = g.length := by
    simp [restrictG]
  rw [hlen]
  have hfold : ∀ (l : List (String × List String)) (s : DfsSt),
      (l.map (fun p =>
          (p.1, p.2.filter (fun d => decide (d ∈ g.map Prod.fst))))).foldl
          (fun s p =>
            if s.visited p.1 = none then
              dfsVisit (restrictG (g.map Prod.fst) g) (g.length + 1) p.1 [] s
            else s) s =
        l.foldl
          (fun s p =>
            if s.visited p.1 = none then dfsVisit g (g.length + 1) p.1 [] s
            else s) s := by
    intro l
    induction l with
    | nil => intro s; rfl
    | cons p l ihl =>
      intro s
      simp only [List.map_cons, List.foldl_cons]
      rw [dfsVisit_restrict, ihl]
  exact hfold g initSt

/-- C9: dependency entries naming ids absent from the task map are inert:
removing them changes neither the recorded cycle sets nor the in_cycle map,
and the (total, fuel-sufficient) traversal returns the same result. -/
theorem C9_unknown_inert (m : List (String × NormalizedTask)) :
    detect_cycles m = detect_cycles (restrictDeps m) := by
  unfold detect_cycles
  have hg : graphOf (restrictDeps m) = restrictG (m.map Prod.fst) (graphOf m) := by
    unfold graphOf restrictDeps restrictG
    rw [List.map_map, List.map_map]
    rfl
  have hks : restrictG (m.map Prod.fst) (graphOf m) =
      restrictG ((graphOf m).map Prod.fst) (graphOf m) := by
    unfold graphOf
    rw [List.map_map]
    rfl
  rw [hg, hks, detectRun_restrict]

/-- Visitation after a mark. -/
theorem markV_visited (n : String) (k : Nat) (s : DfsSt) (x : String) :
    (markV n k s).visited x = if x = n then some k else s.visited x := rfl

/-- Back-edge recording does not change visitation marks. -/
theorem recordCycle_visited (node : String) (stk : List String) (s : DfsSt) :
    (recordCycle node stk s).visited = s.visited := by
  unfold recordCycle
  split_ifs <;> rfl

/-- Recorded cycles persist through back-edge recording. -/
theorem recordCycle_cycles_mem (node : String) (stk : List String) (s : DfsSt)
    (c : List String) (h : c ∈ s.cycles) : c ∈ (recordCycle node stk s).cycles := by
  unfold recordCycle
  split_ifs
  · simp only [List.mem_append]
    exact Or.inl h
  · exact h

/-- Flags persist through back-edge recording. -/
theorem recordCycle_inCyc (node : String) (stk : List String) (s : DfsSt)
    (x : String) (h : s.inCyc x = true) : (recordCycle node stk s).inCyc x = true := by
  unfold recordCycle
  split_ifs with hmem
  · simp only []
    split_ifs with hx
    · rfl
    · exact h
  · exact h

/-- The unvisited count never grows when no mark is removed. -/
theorem unvisitedCount_le (g : Graph) (s s2 : DfsSt)
    (h : ∀ x, s2.visited x = none → s.visited x = none) :
    unvisitedCount g s2 ≤ unvisitedCount g s := by
  unfold unvisitedCount
  apply List.countP_mono_left
  intro p _ hp
  rw [decide_eq_true_eq] at hp
  rw [decide_eq_true_eq]
  exact h p.1 hp

/-- States with equal visitation have equal unvisited counts. -/
theorem unvisitedCount_congr (g : Graph) (s s2 : DfsSt)
    (h : s2.visited = s.visited) : unvisitedCount g s2 = unvisitedCount g s := by
  unfold unvisitedCount
  rw [h]

/-- Marking an unvisited graph key strictly decreases the unvisited count. -/
theorem unvisitedCount_markV_lt (g : Graph) (s : DfsSt) (n : String) (k : Nat)
    (hn : s.visited n = none) (hkey : alist_get g n ≠ none) :
    unvisitedCount g (markV n k s) < unvisitedCount g s := by
  unfold unvisitedCount
  induction g with
  | nil => exact absurd rfl hkey
  | cons p l ih =>
    rw [List.countP_cons, List.countP_cons]
    have hle : l.countP (fun p => decide ((markV n k s).visited p.1 = none)) ≤
        l.countP (fun p => decide (s.visited p.1 = none)) := by
      apply List.countP_mono_left
      intro q _ hq
      rw [decide_eq_true_eq] at hq
      rw [decide_eq_true_eq]
      rw [markV_visited] at hq
      by_cases hqn : q.1 = n
      · rw [if_pos hqn] at hq
        cases hq
      · rwa [if_neg hqn] at hq
    by_cases hp : p.1 = n
    · have h1 : decide ((markV n k s).visited p.1 = none) = false := by
        rw [markV_visited, if_pos hp]
        simp
      have h2 : decide (s.visited p.1 = none) = true := by
        rw [hp, hn]
        simp
      rw [h1, h2, if_neg (by decide), if_pos rfl]
      omega
    · have hkey2 : alist_get l n ≠ none := by
        intro hc
        apply hkey
        simp only [alist_get, if_neg hp, hc]
      have := ih hkey2
      have hsame : decide ((markV n k s).visited p.1 = none) =
          decide (s.visited p.1 = none) := by
        rw [markV_visited, if_neg hp]
      rw [hsame]
      omega

/-- A state is its own DFS postcondition. -/
theorem dfsPost_refl (g : Graph) (A : String) (stk : List String) (s : DfsSt)
    (hstack : StackInv s stk) (hrange : VisRange s) : DfsPost g A stk s s :=
  ⟨hstack, hrange, le_rfl, fun _ h => h, fun _ h => h, fun _ h => h, fun h => h⟩

/-- DFS postconditions compose. -/
theorem dfsPost_trans (g : Graph) (A : String) (stk : List String)
    (s s2 s3 : DfsSt) (h1 : DfsPost g A stk s s2) (h2 : DfsPost g A stk s2 s3) :
    DfsPost g A stk s s3 := by
  obtain ⟨a1, a2, a3, a4, a5, a6, a7⟩ := h1
  obtain ⟨b1, b2, b3, b4, b5, b6, b7⟩ := h2
  exact ⟨b1, b2, le_trans b3 a3, fun x h => b4 x (a4 x h),
    fun c h => b5 c (a5 c h), fun x h => b6 x (a6 x h), fun h => b7 (a7 h)⟩

/-- Back-edge recording satisfies the DFS postcondition. -/
theorem dfsPost_recordCycle (g : Graph) (A : String) (stk : List String)
    (node : String) (s : DfsSt) (hstack : StackInv s stk) (hrange : VisRange s) :
    DfsPost g A stk s (recordCycle node stk s) := by
  have hv := recordCycle_visited node stk s
  refine ⟨?_, ?_, ?_, ?_, ?_, ?_, ?_⟩
  · intro x
    rw [hv]
    exact hstack x
  · intro x
    rw [hv]
    exact hrange x
  · exact le_of_eq (unvisitedCount_congr g s _ hv)
  · intro x h
    rw [hv]
    exact h
  · exact recordCycle_cycles_mem node stk s
  · exact recordCycle_inCyc node stk s
  · intro hq h2
    rw [hv] at h2
    obtain ⟨hc, hic⟩ := hq h2
    exact ⟨recordCycle_cycles_mem node stk s _ hc, recordCycle_inCyc node stk s _ hic⟩

/-- Position of the just-pushed node on the path stack. -/
theorem findIdx_push (stk : List String) (A : String) (h : A ∉ stk) :
    (stk ++ [A]).findIdx (fun x => decide (x = A)) = stk.length := by
  induction stk with
  | nil => simp [List.findIdx_cons]
  | cons b stk ih =>
    have hb : ¬ b = A := fun hh => h (hh ▸ List.mem_cons_self b stk)
    rw [List.cons_append, List.findIdx_cons]
    simp only [decide_eq_false hb, cond_false]
    rw [ih (fun hh => h (List.mem_cons_of_mem b hh))]
    rfl

/-- One-step unfolding of the DFS on an in-progress node. -/
theorem dfsVisit_in_progress (g : Graph) (f : Nat) (node : String)
    (stk : List String) (s : DfsSt) (deps : List String)
    (hg : alist_get g node = some deps) (hv : s.visited node = some 1) :
    dfsVisit g (f + 1) node stk s = recordCycle node stk s := by
  simp [dfsVisit, hg, hv]

/-- Postcondition of the expansion branch of the DFS (unvisited node in the
graph): mark in progress, fold over the dependency edges with the node
pushed on the path stack, mark done. -/
theorem dfsExpand_post (g : Graph) (A : String) (depsA : List String)
    (hA : alist_get g A = some depsA) (hself : A ∈ depsA) (f : Nat)
    (ih : ∀ node stk s, unvisitedCount g s < f → StackInv s stk → VisRange s →
      DfsPost g A stk s (dfsVisit g f node stk s))
    (node : String) (deps : List String) (hg : alist_get g node = some deps)
    (stk : List String) (s : DfsSt) (hf : unvisitedCount g s < f + 1)
    (hstack : StackInv s stk) (hrange : VisRange s)
    (hv : s.visited node = none) :
    DfsPost g A stk s
      (markV node 2
        (deps.foldl (fun acc nb => dfsVisit g f nb (stk ++ [node]) acc)
          (markV node 1 s))) := by
  have hnotin : node ∉ stk := by
    intro hmem
    have h1 := (hstack node).mpr hmem
    rw [hv] at h1
    exact Option.noConfusion h1
  have hstack1 : StackInv (markV node 1 s) (stk ++ [node]) := by
    intro x
    by_cases hx : x = node
    · subst hx
      rw [markV_visited, if_pos rfl]
      simp
    · rw [markV_visited, if_neg hx, hstack x]
      simp [List.mem_append, hx]
  have hrange1 : VisRange (markV node 1 s) := by
    intro x
    rw [markV_visited]
    by_cases hx : x = node
    · simp [hx]
    · rw [if_neg hx]
      exact hrange x
  have hU1 : unvisitedCount g (markV node 1 s) < f := by
    have hlt := unvisitedCount_markV_lt g s node 1 hv
      (by rw [hg]; exact fun h => Option.noConfusion h)
    omega
  have hfold : ∀ (l : List String) (sacc : DfsSt),
      unvisitedCount g sacc < f → StackInv sacc (stk ++ [node]) →
      VisRange sacc →
      DfsPost g A (stk ++ [node]) sacc
        (l.foldl (fun acc nb => dfsVisit g f nb (stk ++ [node]) acc) sacc) := by
    intro l
    induction l with
    | nil =>
      intro sacc h1 h2 h3
      exact dfsPost_refl g A _ sacc h2 h3
    | cons d l ihl =>
      intro sacc h1 h2 h3
      rw [List.foldl_cons]
      have hstep := ih d (stk ++ [node]) sacc h1 h2 h3
      have h1' : unvisitedCount g (dfsVisit g f d (stk ++ [node]) sacc) < f :=
        lt_of_le_of_lt hstep.2.2.1 h1
      exact dfsPost_trans g A _ sacc _ _ hstep (ihl _ h1' hstep.1 hstep.2.1)
  have hpack := hfold deps (markV node 1 s) hU1 hstack1 hrange1
  obtain ⟨q1, q2, q3, q4, q5, q6, q7⟩ := hpack
  have hUdown : ∀ (sx : DfsSt) (k : Nat),
      unvisitedCount g (markV node k sx) ≤ unvisitedCount g sx := by
    intro sx k
    apply unvisitedCount_le
    intro x hx
    rw [markV_visited] at hx
    by_cases hxn : x = node
    · rw [if_pos hxn] at hx
      exact Option.noConfusion hx
    · rwa [if_neg hxn] at hx
  refine ⟨?_, ?_, ?_, ?_, ?_, ?_, ?_⟩
  · intro x
    by_cases hx : x = node
    · subst hx
      rw [markV_visited, if_pos rfl]
      constructor
      · intro hh
        exact absurd (Option.some.inj hh) (by decide)
      · intro hh
        exact absurd hh hnotin
    · rw [markV_visited, if_neg hx, q1 x]
      simp [List.mem_append, hx]
  · intro x
    rw [markV_visited]
    by_cases hx : x = node
    · simp [hx]
    · rw [if_neg hx]
      exact q2 x
  · exact le_trans (hUdown _ 2) (le_trans q3 (hUdown s 1))
  · intro x hx2
    have hxn : ¬ x = node := by
      intro hh
      rw [hh, hv] at hx2
      exact Option.noConfusion hx2
    rw [markV_visited, if_neg hxn]
    apply q4 x
    rw [markV_visited, if_neg hxn]
    exact hx2
  · intro c hc
    exact q5 c hc
  · intro x hx
    exact q6 x hx
  · intro hQ
    by_cases hnA : node = A
    · subst hnA
      have hdeps : deps = depsA := Option.some.inj (hg.symm.trans hA)
      subst hdeps
      intro _
      obtain ⟨l1, l2, hsplit⟩ := List.append_of_mem hself
      -- decompose the fold at the self edge
      have hmemA : node ∈ stk ++ [node] := by simp
      have hpack1 := hfold l1 (markV node 1 s) hU1 hstack1 hrange1
      obtain ⟨r1, r2, r3, r4, r5, r6, r7⟩ := hpack1
      have hvA : (l1.foldl (fun acc nb => dfsVisit g f nb (stk ++ [node]) acc)
          (markV node 1 s)).visited node = some 1 := (r1 node).mpr hmemA
      have hfpos : 0 < f := by omega
      obtain ⟨f2, rfl⟩ : ∃ f2, f = f2 + 1 :=
        ⟨f - 1, by omega⟩
      have hmid : dfsVisit g (f2 + 1) node (stk ++ [node])
            (l1.foldl (fun acc nb => dfsVisit g (f2 + 1) nb (stk ++ [node]) acc)
              (markV node 1 s)) =
          recordCycle node (stk ++ [node])
            (l1.foldl (fun acc nb => dfsVisit g (f2 + 1) nb (stk ++ [node]) acc)
              (markV node 1 s)) :=
        dfsVisit_in_progress g f2 node (stk ++ [node]) _ deps hA hvA
      have hrc : recordCycle node (stk ++ [node])
            (l1.foldl (fun acc nb => dfsVisit g (f2 + 1) nb (stk ++ [node]) acc)
              (markV node 1 s)) =
          { l1.foldl (fun acc nb => dfsVisit g (f2 + 1) nb (stk ++ [node]) acc)
              (markV node 1 s) with
            cycles := (l1.foldl
                (fun acc nb => dfsVisit g (f2 + 1) nb (stk ++ [node]) acc)
                (markV node 1 s)).cycles ++ [[node]]
            inCyc := fun x => if x ∈ [node] then true
              else (l1.foldl
                (fun acc nb => dfsVisit g (f2 + 1) nb (stk ++ [node]) acc)
                (markV node 1 s)).inCyc x } := by
        unfold recordCycle
        rw [if_pos hmemA, findIdx_push stk node hnotin, List.drop_left]
      -- invariants at the recordCycle result
      have hrcvis := recordCycle_visited node (stk ++ [node])
        (l1.foldl (fun acc nb => dfsVisit g (f2 + 1) nb (stk ++ [node]) acc)
          (markV node 1 s))
      have hstackrc : StackInv (recordCycle node (stk ++ [node])
          (l1.foldl (fun acc nb => dfsVisit g (f2 + 1) nb (stk ++ [node]) acc)
            (markV node 1 s))) (stk ++ [node]) := by
        intro x
        rw [hrcvis]
        exact r1 x
      have hrangerc : VisRange (recordCycle node (stk ++ [node])
          (l1.foldl (fun acc nb => dfsVisit g (f2 + 1) nb (stk ++ [node]) acc)
            (markV node 1 s))) := by
        intro x
        rw [hrcvis]
        exact r2 x
      have hUrc : unvisitedCount g (recordCycle node (stk ++ [node])
          (l1.foldl (fun acc nb => dfsVisit g (f2 + 1) nb (stk ++ [node]) acc)
            (markV node 1 s))) < f2 + 1 :=
        lt_of_le_of_lt
          (le_of_eq (unvisitedCount_congr g _ _ hrcvis)) (lt_of_le_of_lt r3 hU1)
      have hpack2 := hfold l2 _ hUrc hstackrc hrangerc
      obtain ⟨w1, w2, w3, w4, w5, w6, w7⟩ := hpack2
      -- the recorded one-element cycle survives to the end of the fold
      have hrecmem : [node] ∈ (recordCycle node (stk ++ [node])
          (l1.foldl (fun acc nb => dfsVisit g (f2 + 1) nb (stk ++ [node]) acc)
            (markV node 1 s))).cycles := by
        rw [hrc]
        simp
      have hrecflag : (recordCycle node (stk ++ [node])
          (l1.foldl (fun acc nb => dfsVisit g (f2 + 1) nb (stk ++ [node]) acc)
            (markV node 1 s))).inCyc node = true := by
        rw [hrc]
        simp
      have hfinalmem := w5 _ hrecmem
      have hfinalflag := w6 _ hrecflag
      -- rewrite the full fold through the decomposition
      rw [hsplit, List.foldl_append, List.foldl_cons, hmid]
      exact ⟨hfinalmem, hfinalflag⟩
    · -- node is not A
      intro h2A
      rw [markV_visited, if_neg (fun hh : A = node => hnA hh.symm)] at h2A
      rcases hrange A with hvA | hvA | hvA
      · -- A was unvisited: the fold preserves QA from a vacuous start
        have hQ1 : QA A (markV node 1 s) := by
          intro hh
          rw [markV_visited, if_neg (fun hh2 : A = node => hnA hh2.symm), hvA] at hh
          exact Option.noConfusion hh
        have hQ2 := q7 hQ1
        obtain ⟨hc, hic⟩ := hQ2 h2A
        exact ⟨hc, hic⟩
      · -- A is on the stack: it stays in progress, contradiction
        have hmemA : A ∈ stk := (hstack A).mp hvA
        have : (deps.foldl (fun acc nb => dfsVisit g f nb (stk ++ [node]) acc)
            (markV node 1 s)).visited A = some 1 :=
          (q1 A).mpr (by simp [List.mem_append, hmemA])
        rw [this] at h2A
        exact absurd (Option.some.inj h2A) (by decide)
      · -- A was already done before this call
        obtain ⟨hc, hic⟩ := hQ hvA
        exact ⟨q5 _ (by exact hc), q6 _ (by exact hic)⟩

/-- Main invariant lemma for one DFS call with sufficient fuel. -/
theorem dfsVisit_post (g : Graph) (A : String) (depsA : List String)
    (hA : alist_get g A = some depsA) (hself : A ∈ depsA) :
    ∀ (f : Nat) (node : String) (stk : List String) (s : DfsSt),
      unvisitedCount g s < f → StackInv s stk → VisRange s →
      DfsPost g A stk s (dfsVisit g f node stk s) := by
  intro f
  induction f with
  | zero =>
    intro node stk s hf _ _
    omega
  | succ f ih =>
    intro node stk s hf hstack hrange
    cases hg : alist_get g node with
    | none =>
      rw [dfsVisit_not_key g (f + 1) node stk s hg]
      exact dfsPost_refl g A stk s hstack hrange
    | some deps =>
      rcases hrange node with hv | hv | hv
      · have heq : dfsVisit g (f + 1) node stk s =
            markV node 2
              (deps.foldl (fun acc nb => dfsVisit g f nb (stk ++ [node]) acc)
                (markV node 1 s)) := by
          simp [dfsVisit, hg, hv]
        rw [heq]
        exact dfsExpand_post g A depsA hA hself f ih node deps hg stk s hf
          hstack hrange hv
      · have heq : dfsVisit g (f + 1) node stk s = recordCycle node stk s := by
          simp [dfsVisit, hg, hv]
        rw [heq]
        exact dfsPost_recordCycle g A stk node s hstack hrange
      · have heq : dfsVisit g (f + 1) node stk s = s := by
          simp [dfsVisit, hg, hv]
        rw [heq]
        exact dfsPost_refl g A stk s hstack hrange

/-- A root call on an unvisited graph key leaves that key marked done. -/
theorem dfsVisit_root_done (g : Graph) (f : Nat) (node : String) (s : DfsSt)
    (deps : List String) (hg : alist_get g node = some deps)
    (hv : s.visited node = none) :
    (dfsVisit g (f + 1) node [] s).visited node = some 2 := by
  simp [dfsVisit, hg, hv, markV]

/-- Invariants of the root loop of detect_cycles: the traversal keeps the
empty-stack invariant and the QA property, done marks persist, and every
processed entry whose key is in the graph ends marked done. -/
theorem rootsFold_post (g : Graph) (A : String) (depsA : List String)
    (hA : alist_get g A = some depsA) (hself : A ∈ depsA) :
    ∀ (l : List (String × List String)) (s : DfsSt),
      StackInv s [] → VisRange s → QA A s →
      StackInv (l.foldl (fun s p =>
          if s.visited p.1 = none then dfsVisit g (g.length + 1) p.1 [] s
          else s) s) [] ∧
      VisRange (l.foldl (fun s p =>
          if s.visited p.1 = none then dfsVisit g (g.length + 1) p.1 [] s
          else s) s) ∧
      QA A (l.foldl (fun s p =>
          if s.visited p.1 = none then dfsVisit g (g.length + 1) p.1 [] s
          else s) s) ∧
      (∀ x, s.visited x = some 2 →
        (l.foldl (fun s p =>
          if s.visited p.1 = none then dfsVisit g (g.length + 1) p.1 [] s
          else s) s).visited x = some 2) ∧
      (∀ p ∈ l, alist_get g p.1 ≠ none →
        (l.foldl (fun s p =>
          if s.visited p.1 = none then dfsVisit g (g.length + 1) p.1 [] s
          else s) s).visited p.1 = some 2) := by
  intro l
  induction l with
  | nil =>
    intro s h1 h2 h3
    exact ⟨h1, h2, h3, fun x h => h, fun p hp => absurd hp (List.not_mem_nil p)⟩
  | cons p l ihl =>
    intro s h1 h2 h3
    rw [List.foldl_cons]
    by_cases hvp : s.visited p.1 = none
    · rw [if_pos hvp]
      have hfuel : unvisitedCount g s < g.length + 1 :=
        lt_of_le_of_lt (List.countP_le_length _) (Nat.lt_succ_self _)
      have hpost := dfsVisit_post g A depsA hA hself (g.length + 1) p.1 [] s
        hfuel h1 h2
      obtain ⟨k1, k2, k3, k4, k5, k6, k7⟩ := hpost
      have hrec := ihl (dfsVisit g (g.length + 1) p.1 [] s) k1 k2 (k7 h3)
      obtain ⟨m1, m2, m3, m4, m5⟩ := hrec
      refine ⟨m1, m2, m3, ?_, ?_⟩
      · intro x hx
        exact m4 x (k4 x hx)
      · intro q hq hkey
        rcases List.mem_cons.mp hq with rfl | hq2
        · cases hgp : alist_get g q.1 with
          | none => exact absurd hgp hkey
          | some d =>
            have hdone : (dfsVisit g (g.length + 1) q.1 [] s).visited q.1 =
                some 2 := dfsVisit_root_done g g.length q.1 s d hgp hvp
            exact m4 _ hdone
        · exact m5 q hq2 hkey
    · rw [if_neg hvp]
      have hrec := ihl s h1 h2 h3
      obtain ⟨m1, m2, m3, m4, m5⟩ := hrec
      refine ⟨m1, m2, m3, m4, ?_⟩
      intro q hq hkey
      rcases List.mem_cons.mp hq with rfl | hq2
      · rcases h2 q.1 with hq1 | hq1 | hq1
        · exact absurd hq1 hvp
        · exact absurd ((h1 q.1).mp hq1) (List.not_mem_nil _)
        · exact m4 _ hq1
      · exact m5 q hq2 hkey

/-- A successful lookup names an entry of the association list. -/
theorem alist_get_some_mem {β : Type} :
    ∀ (m : List (String × β)) (k : String) (v : β),
      alist_get m k = some v → (k, v) ∈ m := by
  intro m
  induction m with
  | nil => intro k v h; cases h
  | cons p l ih =>
    intro k v h
    by_cases hp : p.1 = k
    · simp only [alist_get, if_pos hp] at h
      obtain ⟨a, b⟩ := p
      simp only at hp h
      subst hp
      rw [← Option.some.inj h]
      exact List.mem_cons_self _ _
    · simp only [alist_get, if_neg hp] at h
      exact List.mem_cons_of_mem _ (ih k v h)

/-- After the root loop, the self-dependent node A has its one-element cycle
recorded and its flag set. -/
theorem detectRun_rec (g : Graph) (A : String) (depsA : List String)
    (hA : alist_get g A = some depsA) (hself : A ∈ depsA) :
    [A] ∈ (detectRun g).cycles ∧ (detectRun g).inCyc A = true := by
  have h0stack : StackInv initSt [] := by
    intro x
    constructor
    · intro h
      exact Option.noConfusion h
    · intro h
      exact absurd h (List.not_mem_nil x)
  have h0range : VisRange initSt := fun x => Or.inl rfl
  have h0QA : QA A initSt := fun h => Option.noConfusion h
  have h := rootsFold_post g A depsA hA hself g initSt h0stack h0range h0QA
  obtain ⟨m1, m2, m3, m4, m5⟩ := h
  have hmem : (A, depsA) ∈ g := alist_get_some_mem g A depsA hA
  have hdone := m5 (A, depsA) hmem
    (by rw [hA]; exact fun h => Option.noConfusion h)
  unfold detectRun
  exact m3 hdone

/-- Lookup of a map member in the dependency graph. -/
theorem graphOf_get :
    ∀ (m : List (String × NormalizedTask)), (m.map Prod.fst).Nodup →
      ∀ (A : String) (t : NormalizedTask), (A, t) ∈ m →
        alist_get (graphOf m) A = some t.dependencies := by
  intro m
  induction m with
  | nil =>
    intro _ A t hm
    cases hm
  | cons p l ih =>
    intro hnd A t hm
    rw [List.map_cons, List.nodup_cons] at hnd
    rcases List.mem_cons.mp hm with heq | hmem
    · rw [← heq]
      simp [graphOf, alist_get]
    · by_cases hp : p.1 = A
      · exfalso
        apply hnd.1
        rw [hp]
        exact List.mem_map.mpr ⟨(A, t), hmem, rfl⟩
      · simp only [graphOf, List.map_cons, alist_get, if_neg hp]
        exact ih hnd.2 A t hmem

/-- C8: a task map entry A that lists itself as a dependency yields the
one-element cycle set containing exactly A among the recorded cycles, and
in_cycle maps A to true. -/
theorem C8_self_cycle (m : List (String × NormalizedTask)) (A : String)
    (t : NormalizedTask) (hnd : (m.map Prod.fst).Nodup) (hm : (A, t) ∈ m)
    (hself : A ∈ t.dependencies) :
    [A] ∈ (detect_cycles m).1 ∧ (detect_cycles m).2 A = true := by
  have hA := graphOf_get m hnd A t hm
  have h := detectRun_rec (graphOf m) A t.dependencies hA hself
  exact h

unseal Rat.mul Rat.inv Rat.add Rat.sub in
/-- Witness for C3 at the three-task cycle scenario. -/
theorem C3_witness :
    (("A", normalizeTask 0 (mkDep "A" ["B"])) ∈ buildIdMap c3tasks) ∧
      (detect_cycles (buildIdMap c3tasks)).2 "A" = true ∧
      (scoreTask (applyOverrides (baseWeights "smart_balance") none) 0
          (buildIdMap c3tasks) (detect_cycles (buildIdMap c3tasks)).2 "A"
          (normalizeTask 0 (mkDep "A" ["B"]))).score =
        round4
          (aggregate (applyOverrides (baseWeights "smart_balance") none) 0
              (buildIdMap c3tasks) "A" (normalizeTask 0 (mkDep "A" ["B"])) *
            (9/10)) ∧
      "circular_dependency" ∈
        (scoreTask (applyOverrides (baseWeights "smart_balance") none) 0
          (buildIdMap c3tasks) (detect_cycles (buildIdMap c3tasks)).2 "A"
          (normalizeTask 0 (mkDep "A" ["B"]))).issues := by
  have h := C3_cycle_penalty c3tasks "smart_balance" none 0 "A"
    (normalizeTask 0 (mkDep "A" ["B"])) (by decide)
  exact ⟨by decide, by decide, (h.2.1 (by decide)).1, (h.2.1 (by decide)).2⟩

unseal Rat.mul Rat.inv Rat.add Rat.sub in
/-- Witness for C4 at the deadline scenario task. -/
theorem C4_witness :
    (("t1", normalizeTask 0 c1task) ∈ buildIdMap [c1task]) ∧
      ((0 ≤ urgencyScore 0 (normalizeTask 0 c1task) ∧
          urgencyScore 0 (normalizeTask 0 c1task) ≤ 1) ∧
        (0 ≤ importanceScore (normalizeTask 0 c1task) ∧
          importanceScore (normalizeTask 0 c1task) ≤ 1) ∧
        (0 ≤ effortScore (normalizeTask 0 c1task) ∧
          effortScore (normalizeTask 0 c1task) ≤ 1) ∧
        (0 ≤ dependencyScore (buildIdMap [c1task]) "t1" ∧
          dependencyScore (buildIdMap [c1task]) "t1" ≤ 1) ∧
        (0 ≤ aggregate (applyOverrides (baseWeights "deadline") none) 0
            (buildIdMap [c1task]) "t1" (normalizeTask 0 c1task) ∧
          aggregate (applyOverrides (baseWeights "deadline") none) 0
            (buildIdMap [c1task]) "t1" (normalizeTask 0 c1task) ≤ 1) ∧
        aggregate (applyOverrides (baseWeights "deadline") none) 0
            (buildIdMap [c1task]) "t1" (normalizeTask 0 c1task) * (9/10) ≤
          aggregate (applyOverrides (baseWeights "deadline") none) 0
            (buildIdMap [c1task]) "t1" (normalizeTask 0 c1task)) :=
  ⟨by decide,
    C4_bounds "deadline" 0 (buildIdMap [c1task]) "t1" (normalizeTask 0 c1task)
      (by decide)⟩

unseal Rat.mul Rat.inv Rat.add Rat.sub in
/-- Witness for C5 at an exact two-way score tie. -/
theorem C5_witness :
    ((c5tasks.enum.map (fun p => deriveId p.2 p.1)).Nodup) ∧
      (compute_scores c5tasks "smart_balance" none 0).Pairwise
        (fun a b => b.score ≤ a.score) ∧
      List.Sublist
        [scoreTask (applyOverrides (baseWeights "smart_balance") none) 0
            (buildIdMap c5tasks) (detect_cycles (buildIdMap c5tasks)).2 "X"
            (normalizeTask 0 (mkDep "X" [])),
          scoreTask (applyOverrides (baseWeights "smart_balance") none) 0
            (buildIdMap c5tasks) (detect_cycles (buildIdMap c5tasks)).2 "Y"
            (normalizeTask 1 (mkDep "Y" []))]
        (compute_scores c5tasks "smart_balance" none 0) := by
  have h := C5_sorted_stable c5tasks "smart_balance" none 0 (by decide)
  exact ⟨by decide, h.1, h.2 _ _ (by decide) (by decide)⟩

/-- Witness for C6 at 5 and 40 days overdue. -/
theorem C6_witness :
    ((normalizeTask 0 c1task).due_date = some (-5)) ∧ ((-5 : Int) - 0 < 0) ∧
      ((normalizeTask 0 c6task2).due_date = some (-40)) ∧
      ((-40 : Int) - 0 < 0) ∧
      (urgencyScore 0 (normalizeTask 0 c1task) =
          min (99/100)
            (9/10 + ((min 30 ((0 : Int) - (-5)) : Int) : ℚ) / 100) ∧
        ((0 : Int) - (-5) ≤ (0 : Int) - (-40) →
          urgencyScore 0 (normalizeTask 0 c1task) ≤
            urgencyScore 0 (normalizeTask 0 c6task2)) ∧
        urgencyScore 0 (normalizeTask 0 c1task) ≤ 99/100 ∧
        urgencyScore 0 (normalizeTask 0 c1task) < 1 ∧
        (30 < (0 : Int) - (-5) →
          urgencyScore 0 (normalizeTask 0 c1task) = 99/100)) :=
  ⟨rfl, by decide, rfl, by decide,
    C6_overdue_urgency 0 (-5) (-40) (normalizeTask 0 c1task)
      (normalizeTask 0 c6task2) rfl (by decide) rfl (by decide)⟩

/-- Witness for C7 at a task whose every optional field is malformed. -/
theorem C7_witness :
    (compute_scores [c7bad] "smart_balance" none 0).length =
        (buildIdMap [c7bad]).length ∧
      (normalizeTask 0 c7bad).importance = 5 ∧
      (normalizeTask 0 c7bad).estimated_hours = some 4 ∧
      (normalizeTask 0 c7bad).due_date = none ∧
      (normalizeTask 0 c7bad).dependencies = [] ∧
      "no_due_date" ∈
        (scoreTask (baseWeights "smart_balance") 0 [] (fun _ => false) "x"
          (normalizeTask 0 c7bad)).issues := by
  have h := C7_malformed_defaults [c7bad] "smart_balance" none 0
  exact ⟨h.1, h.2.1 0 c7bad rfl, h.2.2.2.1 0 c7bad rfl,
    h.2.2.2.2.2.1 0 c7bad rfl, h.2.2.2.2.2.2.1 0 c7bad rfl,
    h.2.2.2.2.2.2.2 (baseWeights "smart_balance") 0 [] (fun _ => false) "x"
      (normalizeTask 0 c7bad) rfl⟩

unseal Rat.mul Rat.inv Rat.add Rat.sub in
/-- Witness for C8 at a one-task map with a self-dependency. -/
theorem C8_witness :
    (([("A", c8t)].map Prod.fst).Nodup) ∧ (("A", c8t) ∈ [("A", c8t)]) ∧
      ("A" ∈ c8t.dependencies) ∧
      ["A"] ∈ (detect_cycles [("A", c8t)]).1 ∧
      (detect_cycles [("A", c8t)]).2 "A" = true := by
  have h := C8_self_cycle [("A", c8t)] "A" c8t (by decide) (by decide) (by decide)
  exact ⟨by decide, by decide, by decide, h.1, h.2⟩

end SmartTask
